import Mathlib

/-!
Verification of `generate-usernames.py` (IceScraper).

The script is embedded shallowly over `List Char` / `String`:

* `clean_and_sort_names` embeds the normalizer (lines 29-49 of the source).
  Each of the three `re.sub` passes is embedded as a left-to-right scanner
  that, at every position, tries the regex alternatives in order and removes
  the (greedy) match.  For the concrete patterns of the source
  (`\([^)]+\)?|, ?[a-z]?[A-Z.]+|^(Dr|Mrs?|Ms)\.? ?`, `[^A-Za-z ]|LinkedIn Member`,
  `' +'`) greedy matching without backtracking is exact, because every
  optional/starred piece consumes characters that the following piece can
  never match.  The scanners take their recursion fuel as an explicit first
  argument (`fuel = length` of the input is always enough, as every match is
  nonempty); this keeps all definitions structurally recursive and hence
  executable inside `decide`.
* `convert_to_usernames` embeds the renderer (lines 61-124).  A template is
  embedded in parsed form, as the list of literal/field segments that Python's
  `Formatter().parse` produces; `pyFormat` embeds `str.format(**values)` for
  templates whose field names are plain (nonempty, alphabetic) identifiers,
  returning `none` for the `KeyError` that an unknown field name raises.
  (Field names that are empty, numeric, or contain `.`/`[` make Python's
  `format` raise errors other than `KeyError`; such templates are outside the
  `wfTemplate` well-formedness predicate used by the theorems below.)
* `extract_names` embeds the CSV reader (lines 8-26); the file system is
  abstracted as `Option (list of parsed rows)`, `none` for a missing file.

Python's `list(set(..))` followed by `.sort()` is embedded as
`List.insertionSort (· ≤ ·) ∘ List.dedup`: the set's iteration order is
unspecified, but sorting a duplicate-free list by the total codepoint order
has a unique result, so any model producing a sorted permutation of the
distinct elements is exact.  Mathlib's `≤` on `String` is lexicographic
codepoint order (`String.le_iff_toList_le`).
-/

/-! ### Character classes (ASCII, as in the source's regexes) -/

/-- `[a-z]` of the credential regex. -/
def isLowerAlpha (c : Char) : Bool := 97 ≤ c.toNat && c.toNat ≤ 122

/-- `[A-Z]`. -/
def isUpperAlpha (c : Char) : Bool := 65 ≤ c.toNat && c.toNat ≤ 90

/-- `[A-Z.]` of the credential regex. -/
def isCredChar (c : Char) : Bool := isUpperAlpha c || c = '.'

/-- `[A-Za-z ]`, the characters kept by the `non_names` pass. -/
def isAlphaSp (c : Char) : Bool := isUpperAlpha c || isLowerAlpha c || c = ' '

/-- The whitespace characters stripped by Python's `str.strip()`.  (Python
also strips some rarer Unicode whitespace; at every call site of the script
the argument contains only ASCII letters and `' '`, where the two agree.) -/
def isPySpace (c : Char) : Bool :=
  c = ' ' || c = '\t' || c = '\n' || c = '\r' || c = '\x0b' || c = '\x0c'

/-- Python `str.lower` on the ASCII characters that can reach line 41 of the
source (after the `[^A-Za-z ]` removal pass only ASCII letters and spaces
remain, and on ASCII `str.lower` adds 32 to uppercase codepoints). -/
def pyLowerChar (c : Char) : Char :=
  if 65 ≤ c.toNat ∧ c.toNat ≤ 90 then Char.ofNat (c.toNat + 32) else c

/-! ### The `titles_suffixes` pass: `\([^)]+\)?|, ?[a-z]?[A-Z.]+|^(Dr|Mrs?|Ms)\.? ?` -/

/-- Consume one optional character matching `p` (a greedy `X?`): returns how
many characters were consumed (0 or 1) and the rest. -/
def optChar (p : Char → Bool) : List Char → Nat × List Char
  | [] => (0, [])
  | c :: rest => if p c then (1, rest) else (0, c :: rest)

/-- Length of the match of the alternative `\([^)]+\)?` at the head of the
input, if any.  `[^)]+` is greedy and `\)?` can never fail, so no
backtracking occurs. -/
def matchParen (cs : List Char) : Option Nat :=
  match cs with
  | [] => none
  | c :: rest =>
    if c = '(' then
      let run := rest.takeWhile (fun d => d ≠ ')')
      if run.length = 0 then none
      else some (1 + run.length + (if (rest.drop run.length).head? = some ')' then 1 else 0))
    else none

/-- Length of the match of the alternative `, ?[a-z]?[A-Z.]+` at the head of
the input, if any.  Greedy matching is exact here: if ` ?` or `[a-z]?`
consumed a character, giving that character back can never let `[A-Z.]+`
succeed, since neither `' '` nor a lowercase letter is in `[A-Z.]`. -/
def matchCred (cs : List Char) : Option Nat :=
  match cs with
  | [] => none
  | c :: rest =>
    if c = ',' then
      let s1 := optChar (fun d => d = ' ') rest
      let s2 := optChar isLowerAlpha s1.2
      let run := s2.2.takeWhile isCredChar
      if run.length = 0 then none else some (1 + s1.1 + s2.1 + run.length)
    else none

/-- Length of the `\.? ?` tail of the title alternative. -/
def titleTail (rest : List Char) : Nat :=
  let s1 := optChar (fun d => d = '.') rest
  let s2 := optChar (fun d => d = ' ') s1.2
  s1.1 + s2.1

/-- Length of the match of `(Dr|Mrs?|Ms)\.? ?` at the head of the input, if
any (the caller checks the `^` anchor).  The alternatives are tried in the
regex's order and `s?`, `\.?`, ` ?` are greedy; nothing after them can fail,
so no backtracking occurs. -/
def matchTitle (cs : List Char) : Option Nat :=
  match cs with
  | c1 :: c2 :: rest =>
    if c1 = 'D' ∧ c2 = 'r' then some (2 + titleTail rest)
    else if c1 = 'M' ∧ c2 = 'r' then
      (if rest.head? = some 's' then some (3 + titleTail rest.tail)
       else some (2 + titleTail rest))
    else if c1 = 'M' ∧ c2 = 's' then some (2 + titleTail rest)
    else none
  | _ => none

/-- Length of the leftmost-position match of the full `titles_suffixes`
pattern at the head of the input; the three alternatives are tried in the
regex's order (their possible first characters `(`, `,`, `D`/`M` are in fact
disjoint).  `atStart` tells whether the current position is position 0 of
the string, where alone the `^` anchor of the third alternative matches. -/
def matchTitles (cs : List Char) (atStart : Bool) : Option Nat :=
  match matchParen cs with
  | some k => some k
  | none =>
    match matchCred cs with
    | some k => some k
    | none => if atStart then matchTitle cs else none

/-- The scanner of `re.sub(titles_suffixes, '', name)`: walk left to right;
at each position either remove a match (continuing after it, no longer at
position 0) or emit the character.  `fuel` only forces structural recursion;
`fuel ≥ length` is always enough since every match is nonempty. -/
def titlesGoF : Nat → List Char → Bool → List Char
  | 0, _, _ => []
  | _ + 1, [], _ => []
  | fuel + 1, c :: rest, atStart =>
    match matchTitles (c :: rest) atStart with
    | some k => titlesGoF fuel ((c :: rest).drop k) false
    | none => c :: titlesGoF fuel rest false

/-- Line 33 of the source: `re.sub(titles_suffixes, '', name)`. -/
def titlesSub (cs : List Char) : List Char := titlesGoF cs.length cs true

/-! ### The `non_names` pass: `[^A-Za-z ]|LinkedIn Member` -/

/-- The literal second alternative of the `non_names` regex. -/
def lnkChars : List Char := "LinkedIn Member".data

/-- The scanner of `re.sub(non_names, '', name)`.  At each position the
single-character alternative `[^A-Za-z ]` is tried first, then the literal
`LinkedIn Member` (15 characters). -/
def nonNameScanF : Nat → List Char → List Char
  | 0, _ => []
  | _ + 1, [] => []
  | fuel + 1, c :: rest =>
    if !(isAlphaSp c) then nonNameScanF fuel rest
    else if lnkChars.isPrefixOf (c :: rest) then nonNameScanF fuel ((c :: rest).drop 15)
    else c :: nonNameScanF fuel rest

/-- Line 36 of the source: `re.sub(non_names, '', name)`. -/
def nonNameSub (cs : List Char) : List Char := nonNameScanF cs.length cs

/-! ### `re.sub(' +', ' ', name).strip()` and `.lower()` -/

/-- The scanner of `re.sub(' +', ' ', name)`: every maximal run of spaces
becomes a single space.  `afterSp` records that the current position is
inside a run whose first space was already emitted. -/
def collapseGo : List Char → Bool → List Char
  | [], _ => []
  | c :: rest, afterSp =>
    if c = ' ' then
      if afterSp then collapseGo rest true else ' ' :: collapseGo rest true
    else c :: collapseGo rest false

/-- Python `str.strip()` of trailing whitespace only (right strip). -/
def rstripSp : List Char → List Char
  | [] => []
  | c :: rest =>
    let r := rstripSp rest
    if r.isEmpty && isPySpace c then [] else c :: r

/-- Python `str.strip()`: drop leading then trailing whitespace. -/
def stripPy (cs : List Char) : List Char := rstripSp (cs.dropWhile isPySpace)

/-- `str.strip()` on strings (used on raw names in `extract_names`). -/
def pyStrip (s : String) : String := String.mk (stripPy s.data)

/-! ### The normalizer, lines 29-49 -/

/-- `clean_and_sort_names` (lines 29-49 of the source): the four
list-comprehension passes, removal of empty strings, deduplication and
ascending sort.  `while '' in names: names.remove('')` removes exactly all
empty strings, keeping order, i.e. `filter (· ≠ "")`.  See the header for
why `insertionSort ∘ dedup` is an exact model of `list(set(names))` followed
by `names.sort()`. -/
def clean_and_sort_names (names : List String) : List String :=
  let l1 := names.map (fun name => String.mk (titlesSub name.data))
  let l2 := l1.map (fun name => String.mk (nonNameSub name.data))
  let l3 := l2.map (fun name => String.mk (stripPy (collapseGo name.data false)))
  let l4 := l3.map (fun name => String.mk (name.data.map pyLowerChar))
  let l5 := l4.filter (fun name => name ≠ "")
  List.insertionSort (· ≤ ·) l5.dedup

/-! ### Specification-side predicates for the normalizer's output -/

/-- Acceptor of the pattern `[a-z]+( [a-z]+)*`: `afterLetter` records whether
the previous character was a letter (so a space or the end of input is
allowed). -/
def cleanAux : List Char → Bool → Bool
  | [], afterLetter => afterLetter
  | c :: rest, afterLetter =>
    if isLowerAlpha c then cleanAux rest true
    else if c = ' ' then afterLetter && cleanAux rest false
    else false

/-- A clean name: nonempty, lowercase ASCII words separated by single
spaces, no leading or trailing space — the regex `[a-z]+( [a-z]+)*`. -/
def isCleanName (s : String) : Bool := cleanAux s.data false

/-- No two adjacent spaces. -/
def noDoub : List Char → Bool
  | [] => true
  | c :: rest => !(c = ' ' && rest.head? = some ' ') && noDoub rest

/-- A lowercase ASCII letter or a space: the characters a clean name may
contain. -/
def isLowSp (c : Char) : Bool := isLowerAlpha c || c = ' '

/-! ### The template renderer, lines 52-124 -/

/-- A parsed template segment, as produced by Python's `Formatter().parse`:
literal text or a `{name}` replacement field. -/
inductive Seg where
  | lit : String → Seg
  | field : String → Seg
deriving DecidableEq

/-- `_fields_in_template` (lines 52-58): the field names of the template.
The source's `if field_name:` skips both `None` (literal-only segments,
which the `Seg.lit` case covers) and the empty name. -/
def fieldsInTemplate (t : List Seg) : List String :=
  t.foldr
    (fun s acc =>
      match s with
      | Seg.lit _ => acc
      | Seg.field name => if name = "" then acc else name :: acc)
    []

/-- Line 79: `('first' in fields) or ('f' in fields)`. -/
def requiresFirst (t : List Seg) : Bool :=
  (fieldsInTemplate t).contains "first" || (fieldsInTemplate t).contains "f"

/-- Line 80: `('middle' in fields) or ('m' in fields)`. -/
def requiresMiddle (t : List Seg) : Bool :=
  (fieldsInTemplate t).contains "middle" || (fieldsInTemplate t).contains "m"

/-- Line 81: `('last' in fields) or ('l' in fields)`. -/
def requiresLast (t : List Seg) : Bool :=
  (fieldsInTemplate t).contains "last" || (fieldsInTemplate t).contains "l"

/-- The six replacement-field names the script supports (lines 108-115). -/
def knownFields : List String := ["first", "f", "middle", "m", "last", "l"]

/-- Well-formed template: every replacement field is a plain nonempty
alphabetic identifier.  On this domain `str.format(**values)` either
succeeds or raises exactly `KeyError` (empty or numeric names would raise
`IndexError`, dotted or indexed ones `AttributeError`/`TypeError`, which the
source does not catch); the claims below are stated on this domain. -/
def wfTemplate (t : List Seg) : Bool :=
  t.all fun s =>
    match s with
    | Seg.lit _ => true
    | Seg.field name => name ≠ "" && name.data.all (fun c => isUpperAlpha c || isLowerAlpha c)

/-- Every replacement field of the template is one of the six known names. -/
def usesOnlyKnown (t : List Seg) : Bool :=
  t.all fun s =>
    match s with
    | Seg.lit _ => true
    | Seg.field name => knownFields.contains name

/-- `fstring.format(**template_values)` (line 118) on a parsed template:
substitute each field from the keyword dictionary, `none` for the
`KeyError` raised by a field name that is not a key. -/
def pyFormat : List Seg → List (String × String) → Option String
  | [], _ => some ""
  | Seg.lit s :: rest, vals =>
    (pyFormat rest vals).map (fun r => s ++ r)
  | Seg.field name :: rest, vals =>
    match vals.lookup name with
    | some v => (pyFormat rest vals).map (fun r => v ++ r)
    | none => none

/-- Python `name.split(' ')` on the character list: split at every single
space, keeping empty pieces. -/
def splitSp : List Char → List (List Char)
  | [] => [[]]
  | c :: rest =>
    if c = ' ' then [] :: splitSp rest
    else
      match splitSp rest with
      | t :: ts => (c :: t) :: ts
      | [] => [[c]]

/-- Line 84: `parts = name.split(' ')`. -/
def pySplit (name : String) : List String := (splitSp name.data).map (fun cs => String.mk cs)

/-- `s[0] if s else ''` (lines 104-106): the one-character initial. -/
def strInitial (s : String) : String :=
  match s.data with
  | [] => ""
  | c :: _ => String.mk [c]

/-- The body of the loop of lines 83-122 for one name: `none` means the name
was skipped (a required part is missing, lines 88-96, or `str.format` raised
`KeyError`, lines 117-122), `some u` that `u` was appended to `usernames`. -/
def renderName (rF rL rM : Bool) (t : List Seg) (name : String) : Option String :=
  let parts := pySplit name
  let n := parts.length
  if rF ∧ n < 1 then none
  else if rL ∧ n < 2 then none
  else if rM ∧ n < 3 then none
  else
    let first := if 1 ≤ n then parts.getD 0 "" else ""
    let last := if 2 ≤ n then parts.getD (n - 1) "" else ""
    let middle := if 3 ≤ n then parts.getD 1 "" else ""
    pyFormat t
      [("first", first), ("f", strInitial first), ("middle", middle),
       ("m", strInitial middle), ("last", last), ("l", strInitial last)]

/-- The loop of lines 83-122 over the whole name list, accumulating the
`usernames` list (in append order) and the `skipped` counter. -/
def convertLoop (rF rL rM : Bool) (t : List Seg) : List String → List String × Nat
  | [] => ([], 0)
  | name :: rest =>
    let res := convertLoop rF rL rM t rest
    match renderName rF rL rM t name with
    | some u => (u :: res.1, res.2)
    | none => (res.1, res.2 + 1)

/-- `convert_to_usernames` (lines 61-124): returns `(usernames, skipped)`. -/
def convert_to_usernames (names : List String) (t : List Seg) : List String × Nat :=
  convertLoop (requiresFirst t) (requiresLast t) (requiresMiddle t) t names

/-- The literal text of a template (what rendering a placeholder-free
template produces). -/
def literalText (t : List Seg) : String :=
  t.foldr (fun s acc => match s with | Seg.lit l => l ++ acc | Seg.field _ => acc) ""

/-- The template contains no replacement fields at all, only literal text. -/
def litOnly (t : List Seg) : Bool :=
  t.all fun s => match s with | Seg.lit _ => true | Seg.field _ => false

/-! ### The name extractor, lines 8-26 -/

/-- `extract_names` (lines 8-26).  The file system and the `csv` module are
external collaborators: a missing path is `none`, an existing file is `some`
of the row list the csv reader yields.  Empty rows are dropped (lines
20-21), the first field of every other row is taken (line 22) and stripped
(line 24). -/
def extract_names (file : Option (List (List String))) : List String :=
  let names : List String :=
    match file with
    | none => []
    | some rows => (rows.filter (fun row => row ≠ [])).map (fun row => row.headD "")
  names.map pyStrip

/-! ### Renderer lemmas -/

/-- Each processed name contributes exactly one username or one skip. -/
theorem convertLoop_conserved (rF rL rM : Bool) (t : List Seg) (names : List String) :
    (convertLoop rF rL rM t names).1.length + (convertLoop rF rL rM t names).2
      = names.length := by
  induction names with
  | nil => rfl
  | cons name rest ih =>
    simp only [convertLoop]
    cases h : renderName rF rL rM t name <;> simp [h] <;> omega

/-- A known field name is a key of the `template_values` dictionary. -/
theorem lookup_sixVals_isSome (nm first f middle m last l : String)
    (h : knownFields.contains nm = true) :
    (List.lookup nm
      [("first", first), ("f", f), ("middle", middle), ("m", m),
       ("last", last), ("l", l)]).isSome = true := by
  have h' : nm ∈ knownFields := by simpa [List.contains] using h
  simp only [knownFields, List.mem_cons, List.not_mem_nil, or_false] at h'
  rcases h' with h' | h' | h' | h' | h' | h' <;> subst h' <;> rfl

/-- A name outside the six known fields is not a key of `template_values`. -/
theorem lookup_sixVals_eq_none (nm first f middle m last l : String)
    (h : ¬ nm ∈ knownFields) :
    List.lookup nm
      [("first", first), ("f", f), ("middle", middle), ("m", m),
       ("last", last), ("l", l)] = none := by
  simp only [knownFields, List.mem_cons, List.not_mem_nil, or_false, not_or] at h
  obtain ⟨h1, h2, h3, h4, h5, h6⟩ := h
  have e1 : (nm == "first") = false := beq_eq_false_iff_ne.mpr h1
  have e2 : (nm == "f") = false := beq_eq_false_iff_ne.mpr h2
  have e3 : (nm == "middle") = false := beq_eq_false_iff_ne.mpr h3
  have e4 : (nm == "m") = false := beq_eq_false_iff_ne.mpr h4
  have e5 : (nm == "last") = false := beq_eq_false_iff_ne.mpr h5
  have e6 : (nm == "l") = false := beq_eq_false_iff_ne.mpr h6
  simp [List.lookup, e1, e2, e3, e4, e5, e6]

/-- If every field of the template is known, formatting with the
`template_values` dictionary succeeds (no `KeyError`). -/
theorem pyFormat_sixVals_isSome (t : List Seg) (h : usesOnlyKnown t = true)
    (first f middle m last l : String) :
    (pyFormat t
      [("first", first), ("f", f), ("middle", middle), ("m", m),
       ("last", last), ("l", l)]).isSome = true := by
  induction t with
  | nil => rfl
  | cons s rest ih =>
    simp only [usesOnlyKnown, List.all_cons, Bool.and_eq_true] at h
    cases s with
    | lit str =>
      have := ih h.2
      simp only [pyFormat, Option.isSome_map']
      exact this
    | field name =>
      have hl := lookup_sixVals_isSome name first f middle m last l h.1
      rcases Option.isSome_iff_exists.mp hl with ⟨v, hv⟩
      simp only [pyFormat, hv, Option.isSome_map']
      exact ih h.2

/-- If some field of the template is not a key of the dictionary,
formatting raises `KeyError`. -/
theorem pyFormat_eq_none_of_mem (t : List Seg) (vals : List (String × String))
    (nm : String) (hmem : Seg.field nm ∈ t) (hlook : vals.lookup nm = none) :
    pyFormat t vals = none := by
  induction t with
  | nil => cases hmem
  | cons s rest ih =>
    rcases List.mem_cons.mp hmem with heq | hmem2
    · cases heq
      simp [pyFormat, hlook]
    · cases s with
      | lit str => simp [pyFormat, ih hmem2]
      | field name =>
        cases hl : vals.lookup name with
        | none => simp [pyFormat, hl]
        | some v => simp [pyFormat, hl, ih hmem2]

/-- A failing required-part check makes the renderer skip the name. -/
theorem renderName_eq_none_of_skip (rF rL rM : Bool) (t : List Seg) (name : String)
    (h : (rF = true ∧ (pySplit name).length < 1)
       ∨ (rL = true ∧ (pySplit name).length < 2)
       ∨ (rM = true ∧ (pySplit name).length < 3)) :
    renderName rF rL rM t name = none := by
  by_cases c1 : rF = true ∧ (pySplit name).length < 1
  · simp [renderName, c1]
  · by_cases c2 : rL = true ∧ (pySplit name).length < 2
    · simp [renderName, c1, c2]
    · have c3 : rM = true ∧ (pySplit name).length < 3 := by tauto
      simp [renderName, c1, c2, c3]

/-- When all required-part checks pass, the renderer formats the template
with the component dictionary of lines 98-115. -/
theorem renderName_eq_pyFormat (rF rL rM : Bool) (t : List Seg) (name : String)
    (h1 : ¬(rF = true ∧ (pySplit name).length < 1))
    (h2 : ¬(rL = true ∧ (pySplit name).length < 2))
    (h3 : ¬(rM = true ∧ (pySplit name).length < 3)) :
    renderName rF rL rM t name =
      pyFormat t
        [("first", if 1 ≤ (pySplit name).length then (pySplit name).getD 0 "" else ""),
         ("f", strInitial (if 1 ≤ (pySplit name).length then (pySplit name).getD 0 "" else "")),
         ("middle", if 3 ≤ (pySplit name).length then (pySplit name).getD 1 "" else ""),
         ("m", strInitial (if 3 ≤ (pySplit name).length then (pySplit name).getD 1 "" else "")),
         ("last", if 2 ≤ (pySplit name).length then (pySplit name).getD ((pySplit name).length - 1) "" else ""),
         ("l", strInitial (if 2 ≤ (pySplit name).length then (pySplit name).getD ((pySplit name).length - 1) "" else ""))] := by
  simp only [renderName]
  rw [if_neg h1, if_neg h2, if_neg h3]

/-- Formatting a template without replacement fields always succeeds. -/
theorem pyFormat_litOnly_isSome (t : List Seg) (vals : List (String × String))
    (h : litOnly t = true) : (pyFormat t vals).isSome = true := by
  induction t with
  | nil => rfl
  | cons s rest ih =>
    simp only [litOnly, List.all_cons, Bool.and_eq_true] at h
    cases s with
    | lit str =>
      simp only [pyFormat, Option.isSome_map']
      exact ih h.2
    | field name => cases h.1

/-- When every field is known and all required-part checks pass, the
renderer produces a row. -/
theorem renderName_isSome (rF rL rM : Bool) (t : List Seg) (name : String)
    (hk : usesOnlyKnown t = true)
    (h1 : ¬(rF = true ∧ (pySplit name).length < 1))
    (h2 : ¬(rL = true ∧ (pySplit name).length < 2))
    (h3 : ¬(rM = true ∧ (pySplit name).length < 3)) :
    (renderName rF rL rM t name).isSome = true := by
  rw [renderName_eq_pyFormat rF rL rM t name h1 h2 h3]
  exact pyFormat_sixVals_isSome t hk _ _ _ _ _ _

/-- A template without replacement fields references no field names. -/
theorem fieldsInTemplate_litOnly (t : List Seg) (h : litOnly t = true) :
    fieldsInTemplate t = [] := by
  induction t with
  | nil => rfl
  | cons s rest ih =>
    simp only [litOnly, List.all_cons, Bool.and_eq_true] at h
    cases s with
    | lit str => simpa [fieldsInTemplate] using ih h.2
    | field nm => cases h.1

/-! ### Claim theorems for the renderer -/

/-- C9: for a file path that does not exist, `extract_names` returns the
empty list (and, being a total function, raises no error); the run proceeds
as if the file were empty. -/
theorem C9_missing_file_contributes_nothing : extract_names none = [] := rfl

/-- C10: for every well-formed template and every list of clean names, the
number of rendered usernames plus the skip count equals the length of the
input list: each input name contributes exactly one username or exactly one
skip, never both and never neither. -/
theorem C10_conservation (t : List Seg) (names : List String)
    (hwf : wfTemplate t = true) :
    (convert_to_usernames names t).1.length + (convert_to_usernames names t).2
      = names.length :=
  convertLoop_conserved _ _ _ _ _

/-- Witness for C10 at a concrete template and name list. -/
theorem C10_witness :
    (convert_to_usernames ["jane doe", "x"]
        [Seg.field "f", Seg.field "m", Seg.field "last", Seg.lit "@acme.com"]).1.length
      + (convert_to_usernames ["jane doe", "x"]
        [Seg.field "f", Seg.field "m", Seg.field "last", Seg.lit "@acme.com"]).2 = 2 :=
  C10_conservation _ _ (by decide)

/-- C1 counterexample: a template whose only placeholder is the unknown
field `nickname` does not abort the run; `convert_to_usernames` returns
normally and counts one skip per input name (two names, two skips), i.e.
the unknown field IS treated as a per-name skip, contradicting the claim
that the run aborts before producing output and never per-name-skips. -/
theorem C1_counterexample :
    convert_to_usernames ["jane", "doe"] [Seg.field "nickname"] = ([], 2) := by
  decide

/-- C1 (amended): a template referencing a placeholder outside the fixed
vocabulary does not abort the run: `str.format` raises `KeyError` for every
name that reaches it, the source catches it (lines 119-122) and counts a
per-name skip, so every input name is skipped and the primary output is
empty. -/
theorem C1_unknown_field_is_per_name_skip (t : List Seg) (hwf : wfTemplate t = true)
    (hunk : ∃ nm, Seg.field nm ∈ t ∧ ¬ nm ∈ knownFields) (names : List String) :
    convert_to_usernames names t = ([], names.length) := by
  obtain ⟨nm, hmem, hm⟩ := hunk
  have hrender : ∀ name,
      renderName (requiresFirst t) (requiresLast t) (requiresMiddle t) t name = none := by
    intro name
    by_cases c1 : requiresFirst t = true ∧ (pySplit name).length < 1
    · exact renderName_eq_none_of_skip _ _ _ _ _ (Or.inl c1)
    by_cases c2 : requiresLast t = true ∧ (pySplit name).length < 2
    · exact renderName_eq_none_of_skip _ _ _ _ _ (Or.inr (Or.inl c2))
    by_cases c3 : requiresMiddle t = true ∧ (pySplit name).length < 3
    · exact renderName_eq_none_of_skip _ _ _ _ _ (Or.inr (Or.inr c3))
    rw [renderName_eq_pyFormat _ _ _ _ _ c1 c2 c3]
    exact pyFormat_eq_none_of_mem _ _ nm hmem (lookup_sixVals_eq_none _ _ _ _ _ _ _ hm)
  unfold convert_to_usernames
  induction names with
  | nil => rfl
  | cons name rest ih => simp [convertLoop, hrender name, ih]

/-- Witness for C1 (amended): a required field plus an unknown one; both
names are skipped (one could only ever reach the `KeyError`). -/
theorem C1_witness :
    wfTemplate [Seg.field "f", Seg.field "nickname"] = true ∧
    convert_to_usernames ["ann bob c", "x"] [Seg.field "f", Seg.field "nickname"]
      = ([], 2) :=
  ⟨by decide,
   C1_unknown_field_is_per_name_skip _ (by decide) ⟨"nickname", by decide, by decide⟩ _⟩

/-- C2 counterexample: for the template `"{nickname}"` no component is
required (all three `requires_*` flags are false) and the clean 2-token name
`"jane doe"` fails no required check, yet it is skipped (skip count 1, no
output row) — so "skips iff some required check fails" is false as a
statement about every template. -/
theorem C2_counterexample :
    convert_to_usernames ["jane doe"] [Seg.field "nickname"] = ([], 1) ∧
    requiresFirst [Seg.field "nickname"] = false ∧
    requiresLast [Seg.field "nickname"] = false ∧
    requiresMiddle [Seg.field "nickname"] = false ∧
    (pySplit "jane doe").length = 2 := by
  decide

/-- C2 (amended): for every template all of whose replacement fields are
drawn from the six known names, a clean name is skipped (skip counter
incremented by 1, no output row) if and only if some required check fails —
first required and `n < 1`, last required and `n < 2`, middle required and
`n < 3`, where a component is required exactly when its long form or its
initial is referenced; otherwise exactly one output row is produced. -/
theorem C2_skip_iff_required_check_fails (t : List Seg) (hk : usesOnlyKnown t = true)
    (name : String) :
    (((requiresFirst t = true ∧ (pySplit name).length < 1)
      ∨ (requiresLast t = true ∧ (pySplit name).length < 2)
      ∨ (requiresMiddle t = true ∧ (pySplit name).length < 3)) →
        convert_to_usernames [name] t = ([], 1)) ∧
    (¬((requiresFirst t = true ∧ (pySplit name).length < 1)
      ∨ (requiresLast t = true ∧ (pySplit name).length < 2)
      ∨ (requiresMiddle t = true ∧ (pySplit name).length < 3)) →
        ∃ u, convert_to_usernames [name] t = ([u], 0)) := by
  constructor
  · intro h
    have := renderName_eq_none_of_skip (requiresFirst t) (requiresLast t)
      (requiresMiddle t) t name h
    unfold convert_to_usernames
    simp [convertLoop, this]
  · intro h
    rw [not_or, not_or] at h
    obtain ⟨c1, c2, c3⟩ := h
    rcases Option.isSome_iff_exists.mp
      (renderName_isSome (requiresFirst t) (requiresLast t) (requiresMiddle t)
        t name hk c1 c2 c3) with ⟨u, hu⟩
    refine ⟨u, ?_⟩
    unfold convert_to_usernames
    simp [convertLoop, hu]

/-- Witness for C2 (amended): with template `{f}{m}{last}@acme.com` the
2-token name `jane doe` fails the middle check and is skipped. -/
theorem C2_witness :
    convert_to_usernames ["jane doe"]
      [Seg.field "f", Seg.field "m", Seg.field "last", Seg.lit "@acme.com"] = ([], 1) :=
  (C2_skip_iff_required_check_fails
      [Seg.field "f", Seg.field "m", Seg.field "last", Seg.lit "@acme.com"]
      (by decide) "jane doe").1
    (Or.inr (Or.inr ⟨by decide, by decide⟩))

/-- C4: for every known-fields template and clean name passing the required
checks, the rendered row substitutes `first = tokens[0]` (if `n ≥ 1`),
`last = tokens[n-1]` (if `n ≥ 2`), `middle = tokens[1]` (if `n ≥ 3`), the
empty string for unavailable components, and first-character initials for
`f`/`m`/`l`; tokens strictly between index 1 and the last index do not
appear in the substitution at all. -/
theorem C4_component_assignment (t : List Seg) (hk : usesOnlyKnown t = true)
    (name : String) (parts : List String) (hsplit : pySplit name = parts)
    (n : Nat) (hn : n = parts.length)
    (h1 : ¬(requiresFirst t = true ∧ n < 1))
    (h2 : ¬(requiresLast t = true ∧ n < 2))
    (h3 : ¬(requiresMiddle t = true ∧ n < 3)) :
    convert_to_usernames [name] t =
      ([(pyFormat t
          [("first", if 1 ≤ n then parts.getD 0 "" else ""),
           ("f", strInitial (if 1 ≤ n then parts.getD 0 "" else "")),
           ("middle", if 3 ≤ n then parts.getD 1 "" else ""),
           ("m", strInitial (if 3 ≤ n then parts.getD 1 "" else "")),
           ("last", if 2 ≤ n then parts.getD (n - 1) "" else ""),
           ("l", strInitial (if 2 ≤ n then parts.getD (n - 1) "" else ""))]).getD ""],
       0) := by
  subst hsplit
  subst hn
  have hr := renderName_eq_pyFormat (requiresFirst t) (requiresLast t)
    (requiresMiddle t) t name h1 h2 h3
  rcases Option.isSome_iff_exists.mp
    (renderName_isSome (requiresFirst t) (requiresLast t) (requiresMiddle t)
      t name hk h1 h2 h3) with ⟨u, hu⟩
  have hpf := hr ▸ hu
  unfold convert_to_usernames
  simp only [convertLoop, hu]
  rw [hpf]
  rfl

/-- Witness for C4: `{f}{m}{last}@acme.com` applied to
`john quincy public` yields `jqpublic@acme.com`. -/
theorem C4_witness :
    convert_to_usernames ["john quincy public"]
      [Seg.field "f", Seg.field "m", Seg.field "last", Seg.lit "@acme.com"]
      = (["jqpublic@acme.com"], 0) := by
  have h := C4_component_assignment
    [Seg.field "f", Seg.field "m", Seg.field "last", Seg.lit "@acme.com"] (by decide)
    "john quincy public" (pySplit "john quincy public") rfl 3 (by decide)
    (by decide) (by decide) (by decide)
  rw [h]
  decide

/-- C6 counterexample: the template `x{nickname}` contains none of the six
recognized placeholders and its literal output `"x"` is nonempty, yet the
clean name `"jane"` does not render — it is skipped (skip count 1). -/
theorem C6_counterexample :
    convert_to_usernames ["jane"] [Seg.lit "x", Seg.field "nickname"] = ([], 1) ∧
    (∀ nm ∈ fieldsInTemplate [Seg.lit "x", Seg.field "nickname"], ¬ nm ∈ knownFields) ∧
    literalText [Seg.lit "x", Seg.field "nickname"] = "x" := by
  decide

/-- C6 (amended): for every template containing no placeholders at all
whose literal output is nonempty, every name in the batch renders
successfully and the total skip count is zero. -/
theorem C6_literal_template_never_skips (t : List Seg) (hlit : litOnly t = true)
    (hne : literalText t ≠ "") (names : List String) :
    (convert_to_usernames names t).1.length = names.length ∧
    (convert_to_usernames names t).2 = 0 := by
  have hfields : fieldsInTemplate t = [] := fieldsInTemplate_litOnly t hlit
  have hrf : requiresFirst t = false := by simp [requiresFirst, hfields, List.contains]
  have hrl : requiresLast t = false := by simp [requiresLast, hfields, List.contains]
  have hrm : requiresMiddle t = false := by simp [requiresMiddle, hfields, List.contains]
  have hsome : ∀ name, ∃ u,
      renderName (requiresFirst t) (requiresLast t) (requiresMiddle t) t name = some u := by
    intro name
    have hr := renderName_eq_pyFormat (requiresFirst t) (requiresLast t)
      (requiresMiddle t) t name (by simp [hrf]) (by simp [hrl]) (by simp [hrm])
    rcases Option.isSome_iff_exists.mp
      (pyFormat_litOnly_isSome t _ hlit) with ⟨u, hu⟩
    exact ⟨u, by rw [hr]; exact hu⟩
  unfold convert_to_usernames
  induction names with
  | nil => exact ⟨rfl, rfl⟩
  | cons name rest ih =>
    obtain ⟨u, hu⟩ := hsome name
    obtain ⟨ih1, ih2⟩ := ih
    simp [convertLoop, hu, ih1, ih2]

/-- Witness for C6 (amended) at a literal-only template and two names. -/
theorem C6_witness :
    (convert_to_usernames ["jane doe", "bob"] [Seg.lit "x@acme.com"]).1.length = 2 ∧
    (convert_to_usernames ["jane doe", "bob"] [Seg.lit "x@acme.com"]).2 = 0 :=
  C6_literal_template_never_skips _ (by decide) (by decide) _

/-! ### Claim theorems for the normalizer examples (C8) -/

/-- C8 counterexample: normalizing `"Dr. Jane Q. Public, MD"` does NOT give
`"jane public"` — the lone middle-initial token survives cleaning (the `.`
after `Q` is not preceded by a comma, so the credential alternative cannot
touch it; the bare `.` is removed by the `[^A-Za-z ]` pass, leaving the
token `q`). -/
theorem C8_counterexample :
    clean_and_sort_names ["Dr. Jane Q. Public, MD"] ≠ ["jane public"] := by
  decide

/-- C8 (amended): normalizing the single raw name `"Dr. Jane Q. Public, MD"`
yields the clean name `"jane q public"`: the leading title `"Dr. "` and the
trailing credential `", MD"` are removed but the middle-initial token `"q"`
survives cleaning. -/
theorem C8_title_credential_removed :
    clean_and_sort_names ["Dr. Jane Q. Public, MD"] = ["jane q public"] := by
  decide

/-! ### Lemmas on the `titles_suffixes` scanner (C5) -/

/-- `matchParen` needs `(` as first character. -/
theorem matchParen_cons_ne (c : Char) (rest : List Char) (h : c ≠ '(') :
    matchParen (c :: rest) = none := by
  simp [matchParen, h]

/-- `matchCred` needs `,` as first character. -/
theorem matchCred_cons_ne (c : Char) (rest : List Char) (h : c ≠ ',') :
    matchCred (c :: rest) = none := by
  simp [matchCred, h]

/-- `matchTitle` needs `D` or `M` as first character. -/
theorem matchTitle_cons_ne (c : Char) (rest : List Char)
    (h1 : c ≠ 'D') (h2 : c ≠ 'M') : matchTitle (c :: rest) = none := by
  cases rest with
  | nil => rfl
  | cons c2 r => simp [matchTitle, h1, h2]

/-- No alternative of `titles_suffixes` can start at a character other than
`(`, `,`, `D`, `M`. -/
theorem matchTitles_none_of_benign (c : Char) (rest : List Char) (flag : Bool)
    (h1 : c ≠ '(') (h2 : c ≠ ',') (h3 : c ≠ 'D') (h4 : c ≠ 'M') :
    matchTitles (c :: rest) flag = none := by
  simp only [matchTitles, matchParen_cons_ne c rest h1, matchCred_cons_ne c rest h2,
    matchTitle_cons_ne c rest h3 h4]
  cases flag <;> rfl

/-- A lowercase letter starts no alternative of `titles_suffixes`. -/
theorem matchTitles_none_of_lower (c : Char) (rest : List Char) (flag : Bool)
    (h : isLowerAlpha c = true) : matchTitles (c :: rest) flag = none := by
  refine matchTitles_none_of_benign c rest flag ?_ ?_ ?_ ?_ <;>
    (intro hc; rw [hc] at h; exact absurd h (by decide))

/-- The scanner copies a block of lowercase letters unchanged and continues
after it (no longer at the start of the string when the block is
nonempty). -/
theorem titlesGoF_copy_lower (a : List Char) : ∀ (fuel : Nat) (rest : List Char) (flag : Bool),
    a.all isLowerAlpha = true → a.length + rest.length ≤ fuel →
    titlesGoF fuel (a ++ rest) flag
      = a ++ titlesGoF (fuel - a.length) rest (a.isEmpty && flag) := by
  induction a with
  | nil => intro fuel rest flag _ _; simp
  | cons c a' ih =>
    intro fuel rest flag hall hlen
    simp only [List.all_cons, Bool.and_eq_true] at hall
    cases fuel with
    | zero => rw [List.length_cons] at hlen; omega
    | succ f =>
      simp only [List.cons_append, titlesGoF, List.append_eq,
        matchTitles_none_of_lower c _ flag hall.1]
      rw [ih f rest false hall.2 (by rw [List.length_cons] at hlen; omega)]
      simp [List.isEmpty_cons, List.length_cons, Nat.add_sub_add_right]

/-- `titlesGoF` on the empty input. -/
theorem titlesGoF_nil (fuel : Nat) (flag : Bool) : titlesGoF fuel [] flag = [] := by
  cases fuel <;> rfl

/-- At a `, MD ` block (anywhere, any anchor state) the credential
alternative matches exactly `", MD"` and the scanner continues at the
following space. -/
theorem titlesGoF_cred_step (b : List Char) (fuel : Nat) (flag : Bool)
    (hb : b.all isLowerAlpha = true) (hle : b.length + 5 ≤ fuel) :
    titlesGoF fuel (',' :: ' ' :: 'M' :: 'D' :: ' ' :: b) flag = ' ' :: b := by
  have e1 : isCredChar 'M' = true := by decide
  have e2 : isCredChar 'D' = true := by decide
  have e3 : isCredChar ' ' = false := by decide
  have e4 : isLowerAlpha 'M' = false := by decide
  have hm : matchTitles (',' :: ' ' :: 'M' :: 'D' :: ' ' :: b) flag = some 4 := by
    have hc : matchCred (',' :: ' ' :: 'M' :: 'D' :: ' ' :: b) = some 4 := by
      simp [matchCred, optChar, e1, e2, e3, e4, List.takeWhile_cons]
    simp only [matchTitles, matchParen_cons_ne ',' _ (by decide), hc]
  cases fuel with
  | zero => omega
  | succ f =>
    cases f with
    | zero => omega
    | succ g =>
      have hd : List.drop 4 (',' :: ' ' :: 'M' :: 'D' :: ' ' :: b) = ' ' :: b := rfl
      simp only [titlesGoF, hm, hd]
      simp only [titlesGoF,
        matchTitles_none_of_benign ' ' b false (by decide) (by decide) (by decide) (by decide)]
      have hcopy := titlesGoF_copy_lower b g [] false hb
        (by rw [List.length_nil]; omega)
      rw [List.append_nil] at hcopy
      rw [hcopy, titlesGoF_nil, List.append_nil]

/-- C5 (amended): rule 2 (the credential/suffix alternative
`, ?[a-z]?[A-Z.]+`) removes an occurrence of its pattern wherever it
appears in the name, not only at the end of the string: for any lowercase
prefix `a` and lowercase tail `b`, the mid-string occurrence `", MD"` in
`a ++ ", MD " ++ b` is removed by the pass. -/
theorem C5_credential_removed_anywhere (a b : List Char)
    (ha : a.all isLowerAlpha = true) (hb : b.all isLowerAlpha = true) :
    titlesSub (a ++ (',' :: ' ' :: 'M' :: 'D' :: ' ' :: b)) = a ++ (' ' :: b) := by
  unfold titlesSub
  rw [titlesGoF_copy_lower a _ _ _ ha (le_of_eq (List.length_append a _).symm)]
  rw [titlesGoF_cred_step b _ _ hb (by simp [List.length_append])]

/-- Witness for C5 (amended) at `"ann, MD lee"`. -/
theorem C5_witness :
    titlesSub ("ann".data ++ (',' :: ' ' :: 'M' :: 'D' :: ' ' :: "lee".data))
      = "ann".data ++ (' ' :: "lee".data) :=
  C5_credential_removed_anywhere "ann".data "lee".data (by decide) (by decide)

/-- C5 counterexample: in the raw name `"Ann, MD Lee"` the credential
pattern occurs mid-string (not at the end), yet the pass removes it: the
result is `"Ann Lee"`, so the occurrence is NOT left in place. -/
theorem C5_counterexample :
    String.mk (titlesSub "Ann, MD Lee".data) = "Ann Lee" ∧
    ("Ann Lee" : String) ≠ "Ann, MD Lee" := by
  decide

/-! ### Character lemmas for the lowercasing pass -/

/-- `Char.ofNat` of a small valid codepoint decodes to the same `Nat`. -/
theorem toNat_charOfNat (n : Nat) (h : n < 55296) : (Char.ofNat n).toNat = n := by
  have hv : n.isValidChar := Or.inl h
  rw [Char.ofNat, dif_pos hv]
  simp [Char.ofNatAux, Char.toNat, UInt32.toNat]

/-- `pyLowerChar` sends an ASCII letter or space to a lowercase letter or
space. -/
theorem isLowSp_pyLowerChar (c : Char) (h : isAlphaSp c = true) :
    isLowSp (pyLowerChar c) = true := by
  simp only [isAlphaSp, isUpperAlpha, isLowerAlpha, Bool.or_eq_true, Bool.and_eq_true,
    decide_eq_true_eq] at h
  unfold pyLowerChar
  rcases h with (h | h) | h
  · rw [if_pos h]
    have ht : (Char.ofNat (c.toNat + 32)).toNat = c.toNat + 32 :=
      toNat_charOfNat _ (by omega)
    simp only [isLowSp, isLowerAlpha, Bool.or_eq_true, Bool.and_eq_true, decide_eq_true_eq, ht]
    left; omega
  · rw [if_neg (by omega)]
    simp only [isLowSp, isLowerAlpha, Bool.or_eq_true, Bool.and_eq_true, decide_eq_true_eq]
    left; omega
  · subst h
    rw [if_neg (by decide)]
    decide

/-- `pyLowerChar` preserves being a space, in both directions. -/
theorem pyLowerChar_eq_space_iff (c : Char) : pyLowerChar c = ' ' ↔ c = ' ' := by
  constructor
  · intro h
    unfold pyLowerChar at h
    by_cases hc : 65 ≤ c.toNat ∧ c.toNat ≤ 90
    · rw [if_pos hc] at h
      have ht : (Char.ofNat (c.toNat + 32)).toNat = c.toNat + 32 :=
        toNat_charOfNat _ (by omega)
      have := congrArg Char.toNat h
      rw [ht] at this
      have : c.toNat + 32 = 32 := this
      omega
    · rwa [if_neg hc] at h
  · intro h
    subst h
    rfl

/-- A lowercase letter is fixed by `pyLowerChar`. -/
theorem pyLowerChar_eq_self_of_lower (c : Char) (h : isLowerAlpha c = true) :
    pyLowerChar c = c := by
  simp only [isLowerAlpha, Bool.and_eq_true, decide_eq_true_eq] at h
  unfold pyLowerChar
  rw [if_neg (by omega)]

/-- A character of a clean name is fixed by `pyLowerChar`. -/
theorem pyLowerChar_eq_self_of_lowSp (c : Char) (h : isLowSp c = true) :
    pyLowerChar c = c := by
  simp only [isLowSp, Bool.or_eq_true, decide_eq_true_eq] at h
  rcases h with h | h
  · exact pyLowerChar_eq_self_of_lower c h
  · subst h; rfl

/-- A lowercase letter is not Python whitespace. -/
theorem isPySpace_false_of_lower (c : Char) (h : isLowerAlpha c = true) :
    isPySpace c = false := by
  simp only [isLowerAlpha, Bool.and_eq_true, decide_eq_true_eq] at h
  simp only [isPySpace, Bool.or_eq_false_iff, decide_eq_false_iff_not]
  refine ⟨⟨⟨⟨⟨?_, ?_⟩, ?_⟩, ?_⟩, ?_⟩, ?_⟩ <;>
    (intro hc; subst hc; revert h; decide)

/-- A lowercase letter is not a space. -/
theorem ne_space_of_lower (c : Char) (h : isLowerAlpha c = true) : c ≠ ' ' := by
  intro hc; subst hc; exact absurd h (by decide)

/-! ### Structure lemmas for the normalizer passes -/

/-- Every character emitted by the `non_names` pass is a letter or space. -/
theorem nonNameScanF_all (fuel : Nat) : ∀ cs : List Char,
    (nonNameScanF fuel cs).all isAlphaSp = true := by
  induction fuel with
  | zero => intro cs; rfl
  | succ f ih =>
    intro cs
    cases cs with
    | nil => rfl
    | cons c rest =>
      cases h1 : isAlphaSp c with
      | false =>
        rw [show nonNameScanF (f + 1) (c :: rest) = nonNameScanF f rest by
              simp [nonNameScanF, h1]]
        exact ih rest
      | true =>
        cases h2 : lnkChars.isPrefixOf (c :: rest) with
        | true =>
          rw [show nonNameScanF (f + 1) (c :: rest) = nonNameScanF f ((c :: rest).drop 15) by
                simp [nonNameScanF, h1, h2]]
          exact ih _
        | false =>
          rw [show nonNameScanF (f + 1) (c :: rest) = c :: nonNameScanF f rest by
                simp [nonNameScanF, h1, h2]]
          simp only [List.all_cons, Bool.and_eq_true]
          exact ⟨h1, ih rest⟩

/-- `collapseGo` only emits characters of its input or spaces. -/
theorem collapseGo_all (p : Char → Bool) (hsp : p ' ' = true) : ∀ (cs : List Char) (b : Bool),
    cs.all p = true → (collapseGo cs b).all p = true := by
  intro cs
  induction cs with
  | nil => intro b _; rfl
  | cons c rest ih =>
    intro b hall
    simp only [List.all_cons, Bool.and_eq_true] at hall
    by_cases hc : c = ' '
    · subst hc
      cases b with
      | true =>
        rw [show collapseGo (' ' :: rest) true = collapseGo rest true by simp [collapseGo]]
        exact ih true hall.2
      | false =>
        rw [show collapseGo (' ' :: rest) false = ' ' :: collapseGo rest true by
              simp [collapseGo]]
        simp only [List.all_cons, Bool.and_eq_true]
        exact ⟨hsp, ih true hall.2⟩
    · rw [show collapseGo (c :: rest) b = c :: collapseGo rest false by
            simp [collapseGo, hc]]
      simp only [List.all_cons, Bool.and_eq_true]
      exact ⟨hall.1, ih false hall.2⟩

/-- Unfolding `noDoub` at a cons cell as a propositional condition. -/
theorem noDoub_cons_iff (c : Char) (rest : List Char) :
    noDoub (c :: rest) = true ↔
      ((c = ' ' → rest.head? ≠ some ' ') ∧ noDoub rest = true) := by
  simp only [noDoub, Bool.and_eq_true, Bool.not_eq_true']
  constructor
  · rintro ⟨h1, h2⟩
    refine ⟨?_, h2⟩
    intro hc hh
    rw [hc, hh] at h1
    simp at h1
  · rintro ⟨h1, h2⟩
    refine ⟨?_, h2⟩
    by_cases hc : c = ' '
    · cases hh : rest.head? with
      | none => simp [hc, hh]
      | some d =>
        have hd : d ≠ ' ' := by
          intro hd
          exact h1 hc (by rw [hh, hd])
        simp [hc, hh, hd]
    · simp [hc]

/-- The output of `collapseGo` has no adjacent spaces, and in the
`afterSp = true` state it cannot start with a space. -/
theorem collapseGo_noDoub : ∀ cs : List Char,
    (noDoub (collapseGo cs false) = true ∧ noDoub (collapseGo cs true) = true ∧
      ∀ d, (collapseGo cs true).head? = some d → d ≠ ' ') := by
  intro cs
  induction cs with
  | nil => exact ⟨rfl, rfl, by intro d h; cases h⟩
  | cons c rest ih =>
    obtain ⟨ihf, iht, ihh⟩ := ih
    by_cases hc : c = ' '
    · subst hc
      have hf : collapseGo (' ' :: rest) false = ' ' :: collapseGo rest true := by
        simp [collapseGo]
      have ht : collapseGo (' ' :: rest) true = collapseGo rest true := by
        simp [collapseGo]
      refine ⟨?_, ?_, ?_⟩
      · rw [hf, noDoub_cons_iff]
        exact ⟨fun _ hh => by
          cases hh2 : (collapseGo rest true).head? with
          | none => rw [hh2] at hh; cases hh
          | some d =>
            rw [hh2] at hh
            exact ihh d hh2 (Option.some.injEq _ _ ▸ hh.symm ▸ rfl), iht⟩
      · rw [ht]; exact iht
      · rw [ht]; exact ihh
    · have hgo : ∀ b : Bool, collapseGo (c :: rest) b = c :: collapseGo rest false := by
        intro b; cases b <;> simp [collapseGo, hc]
      refine ⟨?_, ?_, ?_⟩
      · rw [hgo false, noDoub_cons_iff]
        exact ⟨fun h => absurd h hc, ihf⟩
      · rw [hgo true, noDoub_cons_iff]
        exact ⟨fun h => absurd h hc, ihf⟩
      · rw [hgo true]
        intro d hd
        simp only [List.head?_cons, Option.some.injEq] at hd
        subst hd; exact hc

/-- Elimination for `isLowSp`. -/
theorem isLowSp_elim (c : Char) (h : isLowSp c = true) :
    isLowerAlpha c = true ∨ c = ' ' := by
  simpa [isLowSp, Bool.or_eq_true, decide_eq_true_eq] using h

/-- `(String.mk l).data = l`. -/
theorem data_mk (l : List Char) : (String.mk l).data = l := rfl

/-- `dropWhile` preserves an `all` invariant. -/
theorem all_dropWhile (p q : Char → Bool) (cs : List Char) (h : cs.all p = true) :
    (cs.dropWhile q).all p = true := by
  induction cs with
  | nil => rfl
  | cons c rest ih =>
    simp only [List.all_cons, Bool.and_eq_true] at h
    rw [List.dropWhile_cons]
    by_cases hq : q c = true
    · rw [if_pos hq]; exact ih h.2
    · rw [if_neg hq]
      simp only [List.all_cons, Bool.and_eq_true]
      exact ⟨h.1, h.2⟩

/-- The tail of a no-double-space list. -/
theorem noDoub_tail (c : Char) (rest : List Char) (h : noDoub (c :: rest) = true) :
    noDoub rest = true := ((noDoub_cons_iff c rest).mp h).2

/-- `dropWhile` preserves the no-double-space invariant. -/
theorem noDoub_dropWhile (q : Char → Bool) (cs : List Char) (h : noDoub cs = true) :
    noDoub (cs.dropWhile q) = true := by
  induction cs with
  | nil => rfl
  | cons c rest ih =>
    rw [List.dropWhile_cons]
    by_cases hq : q c = true
    · rw [if_pos hq]; exact ih (noDoub_tail c rest h)
    · rw [if_neg hq]; exact h

/-- The head of a `dropWhile` output does not satisfy the predicate. -/
theorem head?_dropWhile_not (q : Char → Bool) (cs : List Char) :
    ∀ d, (cs.dropWhile q).head? = some d → q d = false := by
  induction cs with
  | nil => intro d h; cases h
  | cons c rest ih =>
    intro d h
    rw [List.dropWhile_cons] at h
    by_cases hq : q c = true
    · rw [if_pos hq] at h; exact ih d h
    · rw [if_neg hq] at h
      simp only [List.head?_cons, Option.some.injEq] at h
      subst h
      simpa using hq

/-- `rstripSp` preserves an `all` invariant. -/
theorem rstripSp_all (p : Char → Bool) (cs : List Char) (h : cs.all p = true) :
    (rstripSp cs).all p = true := by
  induction cs with
  | nil => rfl
  | cons c rest ih =>
    simp only [List.all_cons, Bool.and_eq_true] at h
    simp only [rstripSp]
    by_cases hc : ((rstripSp rest).isEmpty && isPySpace c) = true
    · rw [if_pos hc]; rfl
    · rw [if_neg hc]
      simp only [List.all_cons, Bool.and_eq_true]
      exact ⟨h.1, ih h.2⟩

/-- `rstripSp` returns the empty list or keeps the head. -/
theorem rstripSp_head? (cs : List Char) :
    rstripSp cs = [] ∨ (rstripSp cs).head? = cs.head? := by
  cases cs with
  | nil => left; rfl
  | cons c rest =>
    simp only [rstripSp]
    by_cases hc : ((rstripSp rest).isEmpty && isPySpace c) = true
    · rw [if_pos hc]; left; rfl
    · rw [if_neg hc]; right; rfl

/-- `rstripSp` preserves the no-double-space invariant. -/
theorem rstripSp_noDoub (cs : List Char) (h : noDoub cs = true) :
    noDoub (rstripSp cs) = true := by
  induction cs with
  | nil => rfl
  | cons c rest ih =>
    rw [noDoub_cons_iff] at h
    simp only [rstripSp]
    by_cases hc : ((rstripSp rest).isEmpty && isPySpace c) = true
    · rw [if_pos hc]; rfl
    · rw [if_neg hc, noDoub_cons_iff]
      refine ⟨?_, ih h.2⟩
      intro hcsp hh
      rcases rstripSp_head? rest with he | he
      · rw [he] at hh; cases hh
      · rw [he] at hh
        exact h.1 hcsp hh

/-- The last character of an `rstripSp` output is not whitespace. -/
theorem rstripSp_getLast? (cs : List Char) :
    ∀ d, (rstripSp cs).getLast? = some d → isPySpace d = false := by
  induction cs with
  | nil => intro d h; cases h
  | cons c rest ih =>
    intro d h
    simp only [rstripSp] at h
    by_cases hc : ((rstripSp rest).isEmpty && isPySpace c) = true
    · rw [if_pos hc] at h; cases h
    · rw [if_neg hc] at h
      cases he : rstripSp rest with
      | nil =>
        rw [he] at h
        simp only [List.getLast?_singleton, Option.some.injEq] at h
        subst h
        rw [he] at hc
        simpa [List.isEmpty_nil] using hc
      | cons x xs =>
        rw [he, List.getLast?_cons_cons] at h
        exact ih d (he ▸ h)

/-- Lowercasing maps letters-and-spaces to lowercase-letters-and-spaces. -/
theorem all_isLowSp_map_pyLower (cs : List Char) (h : cs.all isAlphaSp = true) :
    (cs.map pyLowerChar).all isLowSp = true := by
  rw [List.all_eq_true] at h ⊢
  intro x hx
  rcases List.mem_map.mp hx with ⟨c, hc, rfl⟩
  exact isLowSp_pyLowerChar c (h c hc)

/-- Lowercasing preserves the no-double-space invariant. -/
theorem noDoub_map_pyLower (cs : List Char) (h : noDoub cs = true) :
    noDoub (cs.map pyLowerChar) = true := by
  induction cs with
  | nil => rfl
  | cons c rest ih =>
    rw [noDoub_cons_iff] at h
    rw [List.map_cons, noDoub_cons_iff]
    refine ⟨?_, ih h.2⟩
    intro hc hh
    rw [List.head?_map] at hh
    cases hr : rest.head? with
    | none => rw [hr] at hh; cases hh
    | some d =>
      rw [hr] at hh
      simp only [Option.map_some', Option.some.injEq] at hh
      have hd : d = ' ' := (pyLowerChar_eq_space_iff d).mp hh
      have hcs : c = ' ' := (pyLowerChar_eq_space_iff c).mp hc
      exact h.1 hcs (by rw [hr, hd])

/-- A clean-name prefix step: a lowercase character advances the acceptor
to (or keeps it in) the after-letter state. -/
theorem cleanAux_cons_lower (d : Char) (r : List Char) (h : isLowerAlpha d = true)
    (b : Bool) : cleanAux (d :: r) b = cleanAux r true := by
  simp [cleanAux, h]

/-- A space is accepted only right after a letter, resetting the state. -/
theorem cleanAux_cons_space (r : List Char) (b : Bool) :
    cleanAux (' ' :: r) b = (b && cleanAux r false) := by
  have e1 : isLowerAlpha ' ' = false := by decide
  simp [cleanAux, e1]

/-- Sufficiency of the structural invariants for the pattern acceptor in
the after-letter state. -/
theorem cleanAux_true_of (cs : List Char) (hall : cs.all isLowSp = true)
    (hnd : noDoub cs = true) (hlast : ∀ d, cs.getLast? = some d → d ≠ ' ') :
    cleanAux cs true = true := by
  induction cs with
  | nil => rfl
  | cons c rest ih =>
    simp only [List.all_cons, Bool.and_eq_true] at hall
    rw [noDoub_cons_iff] at hnd
    have hlast' : ∀ d, rest.getLast? = some d → d ≠ ' ' := by
      intro d hd
      apply hlast d
      cases rest with
      | nil => cases hd
      | cons x xs => rw [List.getLast?_cons_cons]; exact hd
    rcases isLowSp_elim c hall.1 with hc | hc
    · rw [cleanAux_cons_lower c rest hc]
      exact ih hall.2 hnd.2 hlast'
    · subst hc
      cases rest with
      | nil => exact absurd rfl (hlast ' ' (by simp))
      | cons d r2 =>
        have hd : d ≠ ' ' := by
          intro hd
          exact hnd.1 rfl (by rw [hd]; rfl)
        have hdl : isLowerAlpha d = true := by
          have h2 := hall.2
          simp only [List.all_cons, Bool.and_eq_true] at h2
          rcases isLowSp_elim d h2.1 with h | h
          · exact h
          · exact absurd h hd
        rw [cleanAux_cons_space, Bool.true_and, cleanAux_cons_lower d r2 hdl]
        rw [← cleanAux_cons_lower d r2 hdl true]
        exact ih hall.2 hnd.2 hlast'

/-- Sufficiency of the structural invariants for `[a-z]+( [a-z]+)*`: a
nonempty list of lowercase letters and spaces with no double space and no
leading or trailing space is a clean name. -/
theorem cleanAux_false_of (cs : List Char) (hall : cs.all isLowSp = true)
    (hnd : noDoub cs = true) (hlast : ∀ d, cs.getLast? = some d → d ≠ ' ')
    (hhead : ∀ d, cs.head? = some d → d ≠ ' ') (hne : cs ≠ []) :
    cleanAux cs false = true := by
  cases cs with
  | nil => exact absurd rfl hne
  | cons c rest =>
    have hc : c ≠ ' ' := hhead c rfl
    simp only [List.all_cons, Bool.and_eq_true] at hall
    have hcl : isLowerAlpha c = true := by
      rcases isLowSp_elim c hall.1 with h | h
      · exact h
      · exact absurd h hc
    rw [noDoub_cons_iff] at hnd
    rw [cleanAux_cons_lower c rest hcl]
    apply cleanAux_true_of rest hall.2 hnd.2
    intro d hd
    apply hlast d
    cases rest with
    | nil => cases hd
    | cons x xs => rw [List.getLast?_cons_cons]; exact hd

/-- Lowercasing a letters-and-spaces list with sane space structure gives a
clean name (or the empty list). -/
theorem clean_shape_core (s1 : List Char) (hall : s1.all isAlphaSp = true)
    (hnd : noDoub s1 = true) (hhead : ∀ d, s1.head? = some d → d ≠ ' ')
    (hlast : ∀ d, s1.getLast? = some d → d ≠ ' ') :
    (s1.map pyLowerChar) = [] ∨ cleanAux (s1.map pyLowerChar) false = true := by
  cases s1 with
  | nil => left; rfl
  | cons x xs =>
    right
    apply cleanAux_false_of
    · exact all_isLowSp_map_pyLower _ hall
    · exact noDoub_map_pyLower _ hnd
    · intro d hd
      rw [List.getLast?_map] at hd
      cases hl : (x :: xs).getLast? with
      | none => rw [hl] at hd; cases hd
      | some d0 =>
        rw [hl] at hd
        simp only [Option.map_some', Option.some.injEq] at hd
        intro hsp
        rw [← hd] at hsp
        exact hlast d0 hl ((pyLowerChar_eq_space_iff d0).mp hsp)
    · intro d hd
      rw [List.head?_map] at hd
      cases hl : (x :: xs).head? with
      | none => rw [hl] at hd; cases hd
      | some d0 =>
        rw [hl] at hd
        simp only [Option.map_some', Option.some.injEq] at hd
        intro hsp
        rw [← hd] at hsp
        exact hhead d0 hl ((pyLowerChar_eq_space_iff d0).mp hsp)
    · simp

/-- The core shape invariant: for any input to the `non_names` pass, the
composition non-names → collapse spaces → strip → lowercase produces either
the empty list or a word list matching `[a-z]+( [a-z]+)*`. -/
theorem cleanOne_shape (ds : List Char) :
    ((stripPy (collapseGo (nonNameSub ds) false)).map pyLowerChar) = [] ∨
    cleanAux ((stripPy (collapseGo (nonNameSub ds) false)).map pyLowerChar) false
      = true := by
  have hmall : (nonNameSub ds).all isAlphaSp = true := nonNameScanF_all _ _
  have hc1all : (collapseGo (nonNameSub ds) false).all isAlphaSp = true :=
    collapseGo_all _ (by decide) _ _ hmall
  have hc1nd : noDoub (collapseGo (nonNameSub ds) false) = true :=
    (collapseGo_noDoub (nonNameSub ds)).1
  rw [show stripPy (collapseGo (nonNameSub ds) false)
        = rstripSp ((collapseGo (nonNameSub ds) false).dropWhile isPySpace) from rfl]
  set s0 := (collapseGo (nonNameSub ds) false).dropWhile isPySpace with hs0def
  have hs0all : s0.all isAlphaSp = true := all_dropWhile _ _ _ hc1all
  have hs0nd : noDoub s0 = true := noDoub_dropWhile _ _ hc1nd
  have hs0head : ∀ d, s0.head? = some d → isPySpace d = false :=
    head?_dropWhile_not _ _
  set s1 := rstripSp s0 with hs1def
  have hs1all : s1.all isAlphaSp = true := rstripSp_all _ _ hs0all
  have hs1nd : noDoub s1 = true := rstripSp_noDoub _ hs0nd
  have hs1head : ∀ d, s1.head? = some d → d ≠ ' ' := by
    intro d hd he
    rcases rstripSp_head? s0 with h | h
    · rw [hs1def, h] at hd; cases hd
    · rw [hs1def, h] at hd
      have := hs0head d hd
      rw [he] at this
      exact absurd this (by decide)
  have hs1last : ∀ d, s1.getLast? = some d → d ≠ ' ' := by
    intro d hd he
    have := rstripSp_getLast? s0 d (hs1def ▸ hd)
    rw [he] at this
    exact absurd this (by decide)
  exact clean_shape_core s1 hs1all hs1nd hs1head hs1last

/-- Every member of the normalizer's output matches `[a-z]+( [a-z]+)*`. -/
theorem isCleanName_of_mem_clean (names : List String) (s : String)
    (hs : s ∈ clean_and_sort_names names) : isCleanName s = true := by
  simp only [clean_and_sort_names] at hs
  have h1 := ((List.perm_insertionSort (α := String) (· ≤ ·) _).mem_iff).mp hs
  have h2 := List.mem_dedup.mp h1
  rw [List.mem_filter] at h2
  obtain ⟨hmem, hne⟩ := h2
  have hsne : s ≠ "" := of_decide_eq_true hne
  rcases List.mem_map.mp hmem with ⟨y3, _hy3, rfl⟩
  rcases List.mem_map.mp _hy3 with ⟨y2, _hy2, rfl⟩
  rcases List.mem_map.mp _hy2 with ⟨y1, _hy1, rfl⟩
  rcases List.mem_map.mp _hy1 with ⟨x, _hx, rfl⟩
  rw [isCleanName, data_mk, data_mk, data_mk, data_mk]
  rcases cleanOne_shape (titlesSub x.data) with h | h
  · exfalso
    apply hsne
    rw [data_mk, data_mk, data_mk] at h ⊢
    rw [h]
  · rw [data_mk, data_mk] at h
    exact h

/-- The normalizer's output has no duplicates. -/
theorem clean_nodup (names : List String) : (clean_and_sort_names names).Nodup := by
  simp only [clean_and_sort_names]
  exact ((List.perm_insertionSort (α := String) (· ≤ ·) _).nodup_iff).mpr
    (List.nodup_dedup _)

/-- The normalizer's output is sorted ascending (codepoint order). -/
theorem clean_sorted (names : List String) :
    (clean_and_sort_names names).Sorted (· ≤ ·) := by
  simp only [clean_and_sort_names]
  exact List.sorted_insertionSort (α := String) (· ≤ ·) _

/-- C3: for every input list of raw name strings, the normalizer's output
contains only strings matching `[a-z]+( [a-z]+)*` (lowercase ASCII words
separated by single spaces, nonempty, no leading/trailing space), has no
duplicate entries, and is sorted ascending in plain codepoint order. -/
theorem C3_normalizer_output_invariants (names : List String) :
    (∀ s ∈ clean_and_sort_names names, isCleanName s = true) ∧
    (clean_and_sort_names names).Nodup ∧
    (clean_and_sort_names names).Sorted (· ≤ ·) :=
  ⟨fun s hs => isCleanName_of_mem_clean names s hs, clean_nodup names,
   clean_sorted names⟩

/-- Witness for C3 at a concrete input list. -/
theorem C3_witness :
    (∀ s ∈ clean_and_sort_names ["Bob  Smith", "bob smith"], isCleanName s = true) ∧
    (clean_and_sort_names ["Bob  Smith", "bob smith"]).Nodup ∧
    (clean_and_sort_names ["Bob  Smith", "bob smith"]).Sorted (· ≤ ·) :=
  C3_normalizer_output_invariants ["Bob  Smith", "bob smith"]

/-! ### Clean names are fixed points of every pass (C7) -/

/-- A character that is neither lowercase nor a space is rejected. -/
theorem cleanAux_cons_other (c : Char) (r : List Char) (b : Bool)
    (h1 : isLowerAlpha c = false) (h2 : c ≠ ' ') : cleanAux (c :: r) b = false := by
  simp [cleanAux, h1, h2]

/-- A clean name contains only lowercase letters and spaces. -/
theorem cleanAux_all_lowSp (cs : List Char) : ∀ b, cleanAux cs b = true →
    cs.all isLowSp = true := by
  induction cs with
  | nil => intro b _; rfl
  | cons c rest ih =>
    intro b h
    by_cases hc : isLowerAlpha c = true
    · rw [cleanAux_cons_lower c rest hc] at h
      simp only [List.all_cons, Bool.and_eq_true]
      exact ⟨by simp [isLowSp, hc], ih true h⟩
    · by_cases hsp : c = ' '
      · subst hsp
        rw [cleanAux_cons_space] at h
        simp only [List.all_cons, Bool.and_eq_true]
        have h2 : cleanAux rest false = true := by
          simp only [Bool.and_eq_true] at h
          exact h.2
        exact ⟨by decide, ih false h2⟩
      · rw [cleanAux_cons_other c rest b (by simpa using hc) hsp] at h
        cases h

/-- A clean name in the word-start state begins with a lowercase letter. -/
theorem cleanAux_false_head (cs : List Char) (h : cleanAux cs false = true) :
    ∃ d r, cs = d :: r ∧ isLowerAlpha d = true := by
  cases cs with
  | nil => cases h
  | cons c rest =>
    by_cases hc : isLowerAlpha c = true
    · exact ⟨c, rest, rfl, hc⟩
    · by_cases hsp : c = ' '
      · subst hsp
        rw [cleanAux_cons_space] at h
        simp at h
      · rw [cleanAux_cons_other c rest false (by simpa using hc) hsp] at h
        cases h

/-- A clean name has no double spaces. -/
theorem cleanAux_noDoub (cs : List Char) : ∀ b, cleanAux cs b = true →
    noDoub cs = true := by
  induction cs with
  | nil => intro b _; rfl
  | cons c rest ih =>
    intro b h
    by_cases hc : isLowerAlpha c = true
    · rw [cleanAux_cons_lower c rest hc] at h
      rw [noDoub_cons_iff]
      exact ⟨fun hcc => absurd hcc (ne_space_of_lower c hc), ih true h⟩
    · by_cases hsp : c = ' '
      · subst hsp
        rw [cleanAux_cons_space] at h
        have h2 : cleanAux rest false = true := by
          simp only [Bool.and_eq_true] at h
          exact h.2
        obtain ⟨d, r, hdr, hdl⟩ := cleanAux_false_head rest h2
        rw [noDoub_cons_iff]
        refine ⟨?_, ih false h2⟩
        intro _ hh
        rw [hdr] at hh
        simp only [List.head?_cons, Option.some.injEq] at hh
        exact ne_space_of_lower d hdl hh
      · rw [cleanAux_cons_other c rest b (by simpa using hc) hsp] at h
        cases h

/-- A clean name ends with a lowercase letter. -/
theorem cleanAux_getLast_lower (cs : List Char) : ∀ b, cleanAux cs b = true →
    ∀ d, cs.getLast? = some d → isLowerAlpha d = true := by
  induction cs with
  | nil => intro b _ d hd; cases hd
  | cons c rest ih =>
    intro b h d hd
    cases rest with
    | nil =>
      simp only [List.getLast?_singleton, Option.some.injEq] at hd
      rcases hd with rfl
      by_cases hc : isLowerAlpha c = true
      · exact hc
      · by_cases hsp : c = ' '
        · subst hsp
          rw [cleanAux_cons_space] at h
          simp [cleanAux] at h
        · rw [cleanAux_cons_other c [] b (by simpa using hc) hsp] at h
          cases h
    | cons x xs =>
      rw [List.getLast?_cons_cons] at hd
      by_cases hc : isLowerAlpha c = true
      · rw [cleanAux_cons_lower c _ hc] at h
        exact ih true h d hd
      · by_cases hsp : c = ' '
        · subst hsp
          rw [cleanAux_cons_space] at h
          have h2 : cleanAux (x :: xs) false = true := by
            simp only [Bool.and_eq_true] at h
            exact h.2
          exact ih false h2 d hd
        · rw [cleanAux_cons_other c _ b (by simpa using hc) hsp] at h
          cases h

/-- No alternative of `titles_suffixes` starts at a clean-name character. -/
theorem matchTitles_none_of_lowSp (c : Char) (rest : List Char) (flag : Bool)
    (h : isLowSp c = true) : matchTitles (c :: rest) flag = none := by
  rcases isLowSp_elim c h with h | h
  · exact matchTitles_none_of_lower c rest flag h
  · subst h
    exact matchTitles_none_of_benign ' ' rest flag
      (by decide) (by decide) (by decide) (by decide)

/-- The titles pass copies a string of lowercase letters and spaces. -/
theorem titlesGoF_id (fuel : Nat) : ∀ (cs : List Char) (flag : Bool),
    cs.all isLowSp = true → cs.length ≤ fuel → titlesGoF fuel cs flag = cs := by
  induction fuel with
  | zero =>
    intro cs flag _ hl
    cases cs with
    | nil => rfl
    | cons c r => rw [List.length_cons] at hl; omega
  | succ f ih =>
    intro cs flag hall hl
    cases cs with
    | nil => rfl
    | cons c rest =>
      simp only [List.all_cons, Bool.and_eq_true] at hall
      simp only [titlesGoF, matchTitles_none_of_lowSp c rest flag hall.1]
      rw [ih rest false hall.2 (by rw [List.length_cons] at hl; omega)]

/-- `LinkedIn Member` does not start at a clean-name character (it starts
with an uppercase `L`). -/
theorem lnk_not_prefix_of_lowSp (c : Char) (rest : List Char) (h : isLowSp c = true) :
    lnkChars.isPrefixOf (c :: rest) = false := by
  cases hp : lnkChars.isPrefixOf (c :: rest) with
  | false => rfl
  | true =>
    exfalso
    have e : lnkChars = 'L' :: "inkedIn Member".data := rfl
    rw [e] at hp
    simp only [List.isPrefixOf, Bool.and_eq_true, beq_iff_eq] at hp
    have hc : c = 'L' := hp.1.symm
    rw [hc] at h
    exact absurd h (by decide)

/-- The non-names pass copies a string of lowercase letters and spaces. -/
theorem nonNameScanF_id (fuel : Nat) : ∀ cs : List Char,
    cs.all isLowSp = true → cs.length ≤ fuel → nonNameScanF fuel cs = cs := by
  induction fuel with
  | zero =>
    intro cs _ hl
    cases cs with
    | nil => rfl
    | cons c r => rw [List.length_cons] at hl; omega
  | succ f ih =>
    intro cs hall hl
    cases cs with
    | nil => rfl
    | cons c rest =>
      simp only [List.all_cons, Bool.and_eq_true] at hall
      have h1 : isAlphaSp c = true := by
        rcases isLowSp_elim c hall.1 with h | h
        · simp [isAlphaSp, h]
        · subst h; decide
      have h2 : lnkChars.isPrefixOf (c :: rest) = false :=
        lnk_not_prefix_of_lowSp c rest hall.1
      rw [show nonNameScanF (f + 1) (c :: rest) = c :: nonNameScanF f rest by
            simp [nonNameScanF, h1, h2]]
      rw [ih rest hall.2 (by rw [List.length_cons] at hl; omega)]

/-- Space collapsing fixes a list with no double spaces. -/
theorem collapseGo_id (cs : List Char) (hnd : noDoub cs = true) :
    collapseGo cs false = cs ∧
      ((∀ d, cs.head? = some d → d ≠ ' ') → collapseGo cs true = cs) := by
  induction cs with
  | nil => exact ⟨rfl, fun _ => rfl⟩
  | cons c rest ih =>
    rw [noDoub_cons_iff] at hnd
    obtain ⟨ih1, ih2⟩ := ih hnd.2
    by_cases hc : c = ' '
    · subst hc
      have hresthead : ∀ d, rest.head? = some d → d ≠ ' ' := by
        intro d hd he
        subst he
        exact hnd.1 rfl hd
      constructor
      · rw [show collapseGo (' ' :: rest) false = ' ' :: collapseGo rest true by
              simp [collapseGo]]
        rw [ih2 hresthead]
      · intro hh
        exact absurd rfl (hh ' ' rfl)
    · have hgo : ∀ b, collapseGo (c :: rest) b = c :: collapseGo rest false := by
        intro b; cases b <;> simp [collapseGo, hc]
      exact ⟨by rw [hgo false, ih1], fun _ => by rw [hgo true, ih1]⟩

/-- `dropWhile` fixes a list whose head does not satisfy the predicate. -/
theorem dropWhile_id_of_head (q : Char → Bool) (cs : List Char)
    (h : ∀ d, cs.head? = some d → q d = false) : cs.dropWhile q = cs := by
  cases cs with
  | nil => rfl
  | cons c rest =>
    have hc := h c rfl
    rw [List.dropWhile_cons, hc]
    simp

/-- Unfolding `rstripSp` at a cons cell. -/
theorem rstripSp_cons (c : Char) (rest : List Char) :
    rstripSp (c :: rest)
      = if ((rstripSp rest).isEmpty && isPySpace c) = true then []
        else c :: rstripSp rest := rfl

/-- `rstripSp` fixes a list whose last character is not whitespace. -/
theorem rstripSp_id (cs : List Char)
    (h : ∀ d, cs.getLast? = some d → isPySpace d = false) : rstripSp cs = cs := by
  induction cs with
  | nil => rfl
  | cons c rest ih =>
    cases hr : rest with
    | nil =>
      subst hr
      have hc := h c (by simp)
      simp [rstripSp, hc]
    | cons x xs =>
      subst hr
      have hrest : ∀ d, (x :: xs).getLast? = some d → isPySpace d = false := by
        intro d hd
        exact h d (by rw [List.getLast?_cons_cons]; exact hd)
      have hre := ih hrest
      rw [rstripSp_cons, hre]
      rw [if_neg (by simp)]

/-- A map whose function fixes every member is the identity. -/
theorem map_id_of_mem (f : String → String) (l : List String)
    (h : ∀ a ∈ l, f a = a) : l.map f = l := by
  induction l with
  | nil => rfl
  | cons a r ih =>
    rw [List.map_cons, h a (by simp), ih (fun b hb => h b (by simp [hb]))]

/-- A clean name is nonempty. -/
theorem clean_ne_empty (s : String) (h : isCleanName s = true) : s ≠ "" := by
  obtain ⟨d, r, hdr, _⟩ := cleanAux_false_head s.data h
  intro he
  subst he
  rw [show ("" : String).data = [] from rfl] at hdr
  cases hdr

/-- The titles pass fixes a clean name. -/
theorem clean_fix_titles (s : String) (h : isCleanName s = true) :
    String.mk (titlesSub s.data) = s := by
  have hall : s.data.all isLowSp = true := cleanAux_all_lowSp s.data false h
  rw [show titlesSub s.data = s.data from
        titlesGoF_id s.data.length s.data true hall le_rfl]

/-- The non-names pass fixes a clean name. -/
theorem clean_fix_nonName (s : String) (h : isCleanName s = true) :
    String.mk (nonNameSub s.data) = s := by
  have hall : s.data.all isLowSp = true := cleanAux_all_lowSp s.data false h
  rw [show nonNameSub s.data = s.data from
        nonNameScanF_id s.data.length s.data hall le_rfl]

/-- The collapse-and-strip pass fixes a clean name. -/
theorem clean_fix_strip (s : String) (h : isCleanName s = true) :
    String.mk (stripPy (collapseGo s.data false)) = s := by
  have hnd : noDoub s.data = true := cleanAux_noDoub s.data false h
  have hcol : collapseGo s.data false = s.data := (collapseGo_id s.data hnd).1
  obtain ⟨d0, r0, hdr, hdl⟩ := cleanAux_false_head s.data h
  have hhead : ∀ d, s.data.head? = some d → isPySpace d = false := by
    intro d hd
    rw [hdr] at hd
    simp only [List.head?_cons, Option.some.injEq] at hd
    rcases hd with rfl
    exact isPySpace_false_of_lower d0 hdl
  have hlast : ∀ d, s.data.getLast? = some d → isPySpace d = false := by
    intro d hd
    exact isPySpace_false_of_lower d (cleanAux_getLast_lower s.data false h d hd)
  rw [show stripPy (collapseGo s.data false) = s.data by
        rw [hcol]
        show rstripSp (s.data.dropWhile isPySpace) = s.data
        rw [dropWhile_id_of_head isPySpace s.data hhead]
        exact rstripSp_id s.data hlast]

/-- `pyLowerChar` fixes lists of lowercase letters and spaces pointwise. -/
theorem map_pyLower_id_of_lowSp (cs : List Char)
    (hall : ∀ x ∈ cs, isLowSp x = true) : cs.map pyLowerChar = cs := by
  induction cs with
  | nil => rfl
  | cons c r ih =>
    rw [List.map_cons, pyLowerChar_eq_self_of_lowSp c (hall c (by simp)),
      ih (fun x hx => hall x (by simp [hx]))]

/-- The lowercasing pass fixes a clean name. -/
theorem clean_fix_lower (s : String) (h : isCleanName s = true) :
    String.mk (s.data.map pyLowerChar) = s := by
  have hall : s.data.all isLowSp = true := cleanAux_all_lowSp s.data false h
  rw [List.all_eq_true] at hall
  rw [map_pyLower_id_of_lowSp s.data hall]

/-- Normalizing fixes any list of clean names that is duplicate-free and
sorted. -/
theorem clean_fixed_of_clean (l : List String)
    (hcl : ∀ s ∈ l, isCleanName s = true) (hnd : l.Nodup)
    (hsort : l.Sorted (· ≤ ·)) : clean_and_sort_names l = l := by
  simp only [clean_and_sort_names]
  rw [map_id_of_mem _ l (fun s hs => clean_fix_titles s (hcl s hs))]
  rw [map_id_of_mem _ l (fun s hs => clean_fix_nonName s (hcl s hs))]
  rw [map_id_of_mem _ l (fun s hs => clean_fix_strip s (hcl s hs))]
  rw [map_id_of_mem _ l (fun s hs => clean_fix_lower s (hcl s hs))]
  rw [List.filter_eq_self.mpr
    (fun s hs => decide_eq_true (clean_ne_empty s (hcl s hs)))]
  rw [List.dedup_eq_self.mpr hnd]
  exact List.Sorted.insertionSort_eq hsort

/-- C7: the normalizer is idempotent — applying
`clean_and_sort_names` to its own output returns the output unchanged. -/
theorem C7_normalizer_idempotent (names : List String) :
    clean_and_sort_names (clean_and_sort_names names)
      = clean_and_sort_names names :=
  clean_fixed_of_clean _ (fun s hs => isCleanName_of_mem_clean names s hs)
    (clean_nodup names) (clean_sorted names)
